import Mathlib

/-!
# Verification of the akṣara syllabifier (`src/words/syllabify.py`)

A word is modelled as the list of its Unicode code points (`List Nat`),
matching Python string indexing, which is by code point.

The segmentation routine `split_into_aksharas` is an index-based scan in the
source; here the cursor is made explicit by recursing on the remaining
suffix, with a fuel argument equal to the input length (each outer iteration
of the source loop consumes at least one code point, so `w.length` outer
steps always suffice; `splitGo_fuel_irrelevant` proves the fuel is enough).
-/

namespace Syllabify

/-- Code points of a Lean string literal, for readable concrete inputs. -/
def codes (s : String) : List Nat := s.data.map Char.toNat

/-- `VIRAMA = "्"` in the source. -/
def VIRAMA : Nat := 0x094D

/-- `INDEPENDENT_VOWELS = set(chr(c) for c in range(0x0904, 0x0915))`. -/
def isIndependentVowel (c : Nat) : Bool := 0x0904 ≤ c && c < 0x0915

/-- `CONSONANTS = set(chr(c) for c in range(0x0915, 0x093A))`. -/
def isConsonant (c : Nat) : Bool := 0x0915 ≤ c && c < 0x093A

/-- `VOWEL_SIGNS = set(chr(c) for c in range(0x093E, 0x094D))`. -/
def isVowelSign (c : Nat) : Bool := 0x093E ≤ c && c < 0x094D

/-- `DIACRITICS = {"ं", "ः", "ँ"}`. -/
def isDiacritic (c : Nat) : Bool := c == 0x0902 || c == 0x0903 || c == 0x0901

/-- `ZWJ = "‍"`. -/
def ZWJ : Nat := 0x200D

/-- `ZWNJ = "‌"`. -/
def ZWNJ : Nat := 0x200C

/-- The source's `while i < n and word[i] in DIACRITICS: ak += word[i]; i += 1`
loops (lines 55-57 and 84-86): returns the absorbed prefix of diacritics and
the remaining suffix. -/
def absorbDiacritics : List Nat → List Nat × List Nat
  | [] => ([], [])
  | c :: rest =>
    if isDiacritic c then
      let p := absorbDiacritics rest
      (c :: p.1, p.2)
    else ([], c :: rest)

/-- The cluster loop (lines 68-70):
`while i + 1 < n and word[i] == VIRAMA and word[i+1] in CONSONANTS`
absorbs (Virama, Consonant) pairs. -/
def absorbClusters : List Nat → List Nat × List Nat
  | c1 :: c2 :: rest =>
    if c1 == VIRAMA && isConsonant c2 then
      let p := absorbClusters rest
      (c1 :: c2 :: p.1, p.2)
    else ([], c1 :: c2 :: rest)
  | l => ([], l)

/-- The terminal-virama step (lines 73-75):
`if i < n and word[i] == VIRAMA: ak += word[i]; i += 1`. -/
def absorbTerminalVirama : List Nat → List Nat × List Nat
  | [] => ([], [])
  | c :: rest => if c == VIRAMA then ([c], rest) else ([], c :: rest)

/-- The vowel-sign step (lines 79-81):
`if i < n and word[i] in VOWEL_SIGNS and word[i] != VIRAMA`. -/
def absorbVowelSign : List Nat → List Nat × List Nat
  | [] => ([], [])
  | c :: rest =>
    if isVowelSign c && c != VIRAMA then ([c], rest) else ([], c :: rest)

/-- The outer `while i < n` scan of `split_into_aksharas` (lines 46-94), with
the cursor as the remaining suffix and an explicit fuel bounding the number of
outer iterations. -/
def splitGo : Nat → List Nat → List (List Nat)
  | 0, _ => []
  | _ + 1, [] => []
  | fuel + 1, ch :: rest =>
    if isIndependentVowel ch then
      let p := absorbDiacritics rest
      (ch :: p.1) :: splitGo fuel p.2
    else if isConsonant ch then
      let p1 := absorbClusters rest
      let p2 := absorbTerminalVirama p1.2
      let p3 := absorbVowelSign p2.2
      let p4 := absorbDiacritics p3.2
      (ch :: (p1.1 ++ (p2.1 ++ (p3.1 ++ p4.1)))) :: splitGo fuel p4.2
    else
      [ch] :: splitGo fuel rest

/-- `split_into_aksharas` (source lines 41-96): `w.length` outer iterations
always suffice, since each consumes at least one code point. -/
def split_into_aksharas (w : List Nat) : List (List Nat) :=
  splitGo w.length w

end Syllabify

namespace Syllabify

theorem absorbDiacritics_append (l : List Nat) :
    (absorbDiacritics l).1 ++ (absorbDiacritics l).2 = l := by
  induction l with
  | nil => rfl
  | cons c rest ih =>
    simp only [absorbDiacritics]
    split
    · simpa using ih
    · rfl

theorem absorbClusters_append :
    ∀ l : List Nat, (absorbClusters l).1 ++ (absorbClusters l).2 = l
  | [] => rfl
  | [_] => rfl
  | c1 :: c2 :: rest => by
    simp only [absorbClusters]
    split
    · have ih := absorbClusters_append rest
      simpa using ih
    · rfl

theorem absorbTerminalVirama_append (l : List Nat) :
    (absorbTerminalVirama l).1 ++ (absorbTerminalVirama l).2 = l := by
  match l with
  | [] => rfl
  | c :: rest =>
    simp only [absorbTerminalVirama]
    split <;> rfl

theorem absorbVowelSign_append (l : List Nat) :
    (absorbVowelSign l).1 ++ (absorbVowelSign l).2 = l := by
  match l with
  | [] => rfl
  | c :: rest =>
    simp only [absorbVowelSign]
    split <;> rfl

theorem absorbDiacritics_length (l : List Nat) :
    (absorbDiacritics l).2.length ≤ l.length := by
  have h := congrArg List.length (absorbDiacritics_append l)
  simp only [List.length_append] at h
  omega

theorem absorbClusters_length (l : List Nat) :
    (absorbClusters l).2.length ≤ l.length := by
  have h := congrArg List.length (absorbClusters_append l)
  simp only [List.length_append] at h
  omega

theorem absorbTerminalVirama_length (l : List Nat) :
    (absorbTerminalVirama l).2.length ≤ l.length := by
  have h := congrArg List.length (absorbTerminalVirama_append l)
  simp only [List.length_append] at h
  omega

theorem absorbVowelSign_length (l : List Nat) :
    (absorbVowelSign l).2.length ≤ l.length := by
  have h := congrArg List.length (absorbVowelSign_append l)
  simp only [List.length_append] at h
  omega

theorem splitGo_nil (fuel : Nat) : splitGo fuel [] = [] := by
  cases fuel <;> rfl

/-- The fuel only needs to reach the input length: any two sufficient fuels
give the same segmentation.  This is the termination argument of the source's
outer loop (each iteration advances the cursor by at least one code point). -/
theorem splitGo_fuel_irrelevant (fuel fuel' : Nat) (w : List Nat)
    (h : w.length ≤ fuel) (h' : w.length ≤ fuel') :
    splitGo fuel w = splitGo fuel' w := by
  induction fuel generalizing w fuel' with
  | zero =>
    have : w = [] := List.length_eq_zero.mp (by omega)
    subst this
    rw [splitGo_nil, splitGo_nil]
  | succ fuel ih =>
    match w with
    | [] => rw [splitGo_nil, splitGo_nil]
    | ch :: rest =>
      simp only [List.length_cons] at h h'
      match fuel' with
      | fuel' + 1 =>
        simp only [splitGo]
        split
        · have h2 := absorbDiacritics_length rest
          exact congrArg _ (ih _ _ (by omega) (by omega))
        · split
          · have h2 := absorbClusters_length rest
            have h3 := absorbTerminalVirama_length (absorbClusters rest).2
            have h4 := absorbVowelSign_length (absorbTerminalVirama (absorbClusters rest).2).2
            have h5 := absorbDiacritics_length
              (absorbVowelSign (absorbTerminalVirama (absorbClusters rest).2).2).2
            exact congrArg _ (ih _ _ (by omega) (by omega))
          · exact congrArg _ (ih _ _ (by omega) (by omega))

theorem splitGo_flatten (fuel : Nat) (w : List Nat) (h : w.length ≤ fuel) :
    (splitGo fuel w).flatten = w := by
  induction fuel generalizing w with
  | zero =>
    have : w = [] := List.length_eq_zero.mp (by omega)
    subst this
    rfl
  | succ fuel ih =>
    match w with
    | [] => rfl
    | ch :: rest =>
      simp only [List.length_cons] at h
      simp only [splitGo]
      split
      · have h2 := absorbDiacritics_length rest
        simp only [List.flatten_cons, List.cons_append]
        rw [ih _ (by omega), absorbDiacritics_append]
      · split
        · have h2 := absorbClusters_length rest
          have h3 := absorbTerminalVirama_length (absorbClusters rest).2
          have h4 := absorbVowelSign_length (absorbTerminalVirama (absorbClusters rest).2).2
          have h5 := absorbDiacritics_length
            (absorbVowelSign (absorbTerminalVirama (absorbClusters rest).2).2).2
          simp only [List.flatten_cons, List.cons_append, List.append_assoc]
          rw [ih _ (by omega), absorbDiacritics_append, absorbVowelSign_append,
            absorbTerminalVirama_append, absorbClusters_append]
        · simp only [List.flatten_cons, List.singleton_append]
          rw [ih _ (by omega)]

theorem splitGo_not_nil_mem (fuel : Nat) (w : List Nat) (a : List Nat)
    (ha : a ∈ splitGo fuel w) : a ≠ [] := by
  induction fuel generalizing w with
  | zero => simp [splitGo] at ha
  | succ fuel ih =>
    match w with
    | [] => simp [splitGo] at ha
    | ch :: rest =>
      simp only [splitGo] at ha
      split at ha
      · rcases List.mem_cons.mp ha with h | h
        · subst h; simp
        · exact ih _ h
      · split at ha
        · rcases List.mem_cons.mp ha with h | h
          · subst h; simp
          · exact ih _ h
        · rcases List.mem_cons.mp ha with h | h
          · subst h; simp
          · exact ih _ h

theorem splitGo_length_le (fuel : Nat) (w : List Nat) :
    (splitGo fuel w).length ≤ w.length := by
  induction fuel generalizing w with
  | zero => simp [splitGo]
  | succ fuel ih =>
    match w with
    | [] => simp [splitGo]
    | ch :: rest =>
      simp only [splitGo]
      split
      · have h2 := absorbDiacritics_length rest
        have := ih (absorbDiacritics rest).2
        simp only [List.length_cons]
        omega
      · split
        · have h2 := absorbClusters_length rest
          have h3 := absorbTerminalVirama_length (absorbClusters rest).2
          have h4 := absorbVowelSign_length (absorbTerminalVirama (absorbClusters rest).2).2
          have h5 := absorbDiacritics_length
            (absorbVowelSign (absorbTerminalVirama (absorbClusters rest).2).2).2
          have := ih (absorbDiacritics
            (absorbVowelSign (absorbTerminalVirama (absorbClusters rest).2).2).2).2
          simp only [List.length_cons]
          omega
        · have := ih rest
          simp only [List.length_cons]
          omega

/-- **C1.** Losslessness of segmentation: for every word `w`, concatenating the
elements of `split_into_aksharas w` in order, with no separator, yields
exactly `w`. -/
theorem C1_split_into_aksharas_lossless (w : List Nat) :
    (split_into_aksharas w).flatten = w :=
  splitGo_flatten w.length w (Nat.le_refl _)

/-- **C2.** Totality and termination of segmentation: any fuel at least the
input length yields the same result (the outer scan advances the cursor by at
least one code point per iteration, so `w.length` outer steps terminate the
scan); every returned element is non-empty; the number of akṣaras is at most
the number of code points; and the empty string yields the empty sequence. -/
theorem C2_split_into_aksharas_total (w : List Nat) (fuel : Nat)
    (h : w.length ≤ fuel) :
    splitGo fuel w = split_into_aksharas w ∧
    (∀ a ∈ split_into_aksharas w, a ≠ []) ∧
    (split_into_aksharas w).length ≤ w.length ∧
    split_into_aksharas [] = ([] : List (List Nat)) :=
  ⟨splitGo_fuel_irrelevant fuel w.length w h (Nat.le_refl _),
   fun a ha => splitGo_not_nil_mem w.length w a ha,
   splitGo_length_le w.length w,
   rfl⟩

theorem C2_split_into_aksharas_total_witness :
    (codes "तम्").length ≤ 7 ∧
    (splitGo 7 (codes "तम्") = split_into_aksharas (codes "तम्") ∧
     (∀ a ∈ split_into_aksharas (codes "तम्"), a ≠ []) ∧
     (split_into_aksharas (codes "तम्")).length ≤ (codes "तम्").length ∧
     split_into_aksharas [] = ([] : List (List Nat))) :=
  ⟨by decide, C2_split_into_aksharas_total (codes "तम्") 7 (by decide)⟩

theorem consonant_not_independentVowel (c : Nat) (h : isConsonant c = true) :
    isIndependentVowel c = false := by
  simp only [isConsonant, Bool.and_eq_true, decide_eq_true_eq] at h
  simp only [isIndependentVowel, Bool.and_eq_false_iff, decide_eq_false_iff_not]
  omega

theorem vowelSign_not_consonant (v : Nat) (h : isVowelSign v = true) :
    isConsonant v = false := by
  simp only [isVowelSign, Bool.and_eq_true, decide_eq_true_eq] at h
  simp only [isConsonant, Bool.and_eq_false_iff, decide_eq_false_iff_not]
  omega

theorem vowelSign_beq_virama (v : Nat) (h : isVowelSign v = true) :
    (v == VIRAMA) = false := by
  simp only [isVowelSign, Bool.and_eq_true, decide_eq_true_eq] at h
  simp only [VIRAMA, beq_eq_false_iff_ne, ne_eq]
  omega

/-- **C10.** The fallback fires by position, not only by class: a code point
that is neither an Independent Vowel nor a Consonant — in particular a Vowel
Sign, the Virama, or a Diacritic — occurring where no akṣara is in progress
(i.e. at an outer-scan position) is emitted as its own single-character
akṣara, exactly like an unclassified code point. -/
theorem C10_fallback_by_position (c : Nat) (rest : List Nat)
    (h : isVowelSign c = true ∨ c = VIRAMA ∨ isDiacritic c = true) :
    split_into_aksharas (c :: rest) = [c] :: split_into_aksharas rest := by
  have hiv : isIndependentVowel c = false := by
    simp only [isIndependentVowel, Bool.and_eq_false_iff, decide_eq_false_iff_not]
    rcases h with h | h | h
    · simp only [isVowelSign, Bool.and_eq_true, decide_eq_true_eq] at h
      omega
    · subst h; simp only [VIRAMA]; omega
    · simp only [isDiacritic, Bool.or_eq_true, beq_iff_eq] at h
      omega
  have hc : isConsonant c = false := by
    simp only [isConsonant, Bool.and_eq_false_iff, decide_eq_false_iff_not]
    rcases h with h | h | h
    · simp only [isVowelSign, Bool.and_eq_true, decide_eq_true_eq] at h
      omega
    · subst h; simp only [VIRAMA]; omega
    · simp only [isDiacritic, Bool.or_eq_true, beq_iff_eq] at h
      omega
  simp only [split_into_aksharas, List.length_cons, splitGo, hiv, hc,
    Bool.false_eq_true, if_false]

theorem C10_fallback_by_position_witness :
    (isVowelSign 0x93E = true ∨ (0x93E : Nat) = VIRAMA ∨ isDiacritic 0x93E = true) ∧
    split_into_aksharas (0x93E :: codes "क") = [0x93E] :: split_into_aksharas (codes "क") :=
  ⟨Or.inl (by decide), C10_fallback_by_position 0x93E (codes "क") (Or.inl (by decide))⟩

/-- The body of a consonant cluster: `(Virama, Consonant)` repeated, one pair
per element of `ps`. -/
def clusterBody (ps : List Nat) : List Nat :=
  (ps.map fun d => [VIRAMA, d]).flatten

theorem absorbClusters_clusterBody (ps : List Nat) (v : Nat)
    (hps : ∀ d ∈ ps, isConsonant d = true) :
    absorbClusters (clusterBody ps ++ [v]) = (clusterBody ps, [v]) := by
  induction ps with
  | nil => rfl
  | cons d ps ih =>
    have hd : isConsonant d = true := hps d (List.mem_cons_self d ps)
    have hrec := ih fun e he => hps e (List.mem_cons_of_mem d he)
    show absorbClusters (VIRAMA :: d :: (clusterBody ps ++ [v])) =
      (VIRAMA :: d :: clusterBody ps, [v])
    simp only [absorbClusters, beq_self_eq_true, hd, Bool.and_self, if_true, hrec]

/-- **C4.** Cluster absorption: a word of the exact form Consonant, then
`(Virama, Consonant)` repeated `k` times, then one Vowel Sign, is segmented
into exactly one akṣara, equal to the whole input word. -/
theorem C4_cluster_absorption (c v : Nat) (ps : List Nat)
    (hc : isConsonant c = true) (hps : ∀ d ∈ ps, isConsonant d = true)
    (hv : isVowelSign v = true) :
    split_into_aksharas (c :: clusterBody ps ++ [v]) = [c :: clusterBody ps ++ [v]] := by
  have h1 : isIndependentVowel c = false := consonant_not_independentVowel c hc
  have h2 : (v == VIRAMA) = false := vowelSign_beq_virama v hv
  simp only [split_into_aksharas, List.length_cons, splitGo, h1, Bool.false_eq_true,
    if_false, hc, if_true]
  simp only [List.append_eq]
  rw [absorbClusters_clusterBody ps v hps]
  simp only [absorbTerminalVirama, h2, Bool.false_eq_true, if_false]
  simp only [absorbVowelSign, hv, h2, bne, Bool.not_false, Bool.and_self, if_true]
  simp only [absorbDiacritics, splitGo_nil]
  simp

theorem C4_cluster_absorption_witness :
    (isConsonant 0x915 = true) ∧
    (∀ d ∈ [0x937, 0x92E], isConsonant d = true) ∧
    (isVowelSign 0x93E = true) ∧
    split_into_aksharas (0x915 :: clusterBody [0x937, 0x92E] ++ [0x93E]) =
      [0x915 :: clusterBody [0x937, 0x92E] ++ [0x93E]] :=
  ⟨by decide, by decide, by decide,
   C4_cluster_absorption 0x915 0x93E [0x937, 0x92E] (by decide) (by decide) (by decide)⟩

/-- `true` iff the list contains a Virama code point immediately followed by a
Vowel Sign (since Consonants and Vowel Signs are disjoint ranges, such a pair
is never a `(Virama, Consonant)` cluster pair). -/
def hasViramaVowelSign : List Nat → Bool
  | c1 :: c2 :: rest => (c1 == VIRAMA && isVowelSign c2) || hasViramaVowelSign (c2 :: rest)
  | _ => false

/-- **C3, counterexample.** The claim fails on the input
Consonant-Virama-VowelSign `[क, ्, ा]`: the code absorbs the lone trailing
Virama (line 73-75) and then still absorbs the following Vowel Sign
(line 79-81), so the returned akṣara contains a Virama immediately followed
by a Vowel Sign outside a `(Virama, Consonant)` cluster pair. -/
theorem C3_counterexample :
    split_into_aksharas [0x915, 0x94D, 0x93E] = [[0x915, 0x94D, 0x93E]] ∧
    hasViramaVowelSign [0x915, 0x94D, 0x93E] = true := by
  decide

/-- **C3, amended.** Absorbing a lone trailing Virama does not close
vowel-sign absorption: an immediately following Vowel Sign is still absorbed
into the same akṣara.  The mutual exclusion that does hold is per code point:
the Virama itself is never absorbed by the vowel-sign step. -/
theorem C3_amended_virama_then_vowel_sign (c v : Nat)
    (hc : isConsonant c = true) (hv : isVowelSign v = true) :
    split_into_aksharas [c, VIRAMA, v] = [[c, VIRAMA, v]] ∧
    (∀ l : List Nat, absorbVowelSign (VIRAMA :: l) = ([], VIRAMA :: l)) := by
  constructor
  · have h1 : isIndependentVowel c = false := consonant_not_independentVowel c hc
    have h2 : (v == VIRAMA) = false := vowelSign_beq_virama v hv
    have h3 : isConsonant v = false := vowelSign_not_consonant v hv
    simp only [split_into_aksharas, List.length_cons, List.length_nil, splitGo, h1,
      Bool.false_eq_true, if_false, hc, if_true]
    simp only [absorbClusters, beq_self_eq_true, h3, Bool.and_false, Bool.false_eq_true,
      if_false]
    simp only [absorbTerminalVirama, beq_self_eq_true, if_true]
    simp only [absorbVowelSign, hv, h2, bne, Bool.not_false, Bool.and_self, if_true]
    simp only [absorbDiacritics, splitGo_nil]
    simp
  · intro l
    simp [absorbVowelSign, isVowelSign, VIRAMA]

theorem C3_amended_virama_then_vowel_sign_witness :
    (isConsonant 0x915 = true) ∧ (isVowelSign 0x93E = true) ∧
    (split_into_aksharas [0x915, VIRAMA, 0x93E] = [[0x915, VIRAMA, 0x93E]] ∧
     (∀ l : List Nat, absorbVowelSign (VIRAMA :: l) = ([], VIRAMA :: l))) :=
  ⟨by decide, by decide,
   C3_amended_virama_then_vowel_sign 0x915 0x93E (by decide) (by decide)⟩

/-- The code points Python's `str.strip()` removes (Unicode whitespace:
categories Zs/Zl/Zp and bidirectional classes WS/B/S). -/
def isPySpace (c : Nat) : Bool :=
  (0x09 ≤ c && c ≤ 0x0D) || (0x1C ≤ c && c ≤ 0x1F) || c == 0x20 || c == 0x85 ||
  c == 0xA0 || c == 0x1680 || (0x2000 ≤ c && c ≤ 0x200A) || c == 0x2028 ||
  c == 0x2029 || c == 0x202F || c == 0x205F || c == 0x3000

/-- Python `word.strip()` (line 31): drop whitespace at both ends. -/
def pyStrip (l : List Nat) : List Nat :=
  ((l.dropWhile isPySpace).reverse.dropWhile isPySpace).reverse

/-- `normalize_word` (lines 30-34): strip, then NFC, then delete every ZWJ and
every ZWNJ (`str.replace(x, "")` removes all occurrences).

`unicodedata.normalize("NFC", ·)` is the Unicode library's canonical
composition; it is not code of this repository and is kept abstract as the
parameter `nfc`.  Concrete instantiations below use `id` only on strings the
real NFC fixes (strings that are already composed and contain no combining
marks, such as `[ZWJ, space, क]` and whitespace-only strings). -/
def normalize_word (nfc : List Nat → List Nat) (w : List Nat) : List Nat :=
  ((nfc (pyStrip w)).filter (fun c => !(c == ZWJ))).filter (fun c => !(c == ZWNJ))

/-- **C5, counterexample.** The claim's "no leading or trailing whitespace"
clause fails: on the raw line `[ZWJ, ' ', क]` (on which NFC is the identity:
every code point is NFC-stable and there is no combining mark), `strip` runs
first and removes nothing (ZWJ is not whitespace), and deleting the ZWJ then
exposes a leading space, so the result `[' ', क]` starts with whitespace. -/
theorem C5_counterexample :
    normalize_word id [0x200D, 0x20, 0x915] = [0x20, 0x915] ∧
    isPySpace 0x20 = true ∧
    pyStrip [0x20, 0x915] = [0x915] := by
  decide

/-- **C5, amended.** For every NFC function with `nfc [] = []` and every raw
line: the result of `normalize_word` contains no ZWJ and no ZWNJ code points,
and a line that is blank after trimming yields the empty string.  (Trimming
happens before joiner removal, so whitespace exposed by deleting a ZWJ/ZWNJ
can survive at the ends; whether the result is NFC-normalized depends on the
external Unicode library and is outside this model.) -/
theorem C5_amended_normalize_word (nfc : List Nat → List Nat)
    (hnil : nfc [] = []) (w : List Nat) :
    ZWJ ∉ normalize_word nfc w ∧ ZWNJ ∉ normalize_word nfc w ∧
    (pyStrip w = [] → normalize_word nfc w = []) := by
  refine ⟨?_, ?_, ?_⟩
  · intro hmem
    simp [normalize_word, List.mem_filter] at hmem
  · intro hmem
    simp [normalize_word, List.mem_filter] at hmem
  · intro hblank
    simp [normalize_word, hblank, hnil]

theorem C5_amended_normalize_word_witness :
    (id ([] : List Nat) = []) ∧
    (ZWJ ∉ normalize_word id (codes "  ") ∧ ZWNJ ∉ normalize_word id (codes "  ") ∧
     (pyStrip (codes "  ") = [] → normalize_word id (codes "  ") = [])) :=
  ⟨rfl, C5_amended_normalize_word id rfl (codes "  ")⟩

/-- The word-collection loop of `process_file` (lines 110-114): each line is
normalized and appended when non-empty (Python truthiness of a string). -/
def collect_words (nfc : List Nat → List Nat) (lines : List (List Nat)) : List (List Nat) :=
  lines.foldl
    (fun acc line =>
      let w := normalize_word nfc line
      if w ≠ [] then acc ++ [w] else acc)
    []

/-- The decimal digits of `n`, most significant first (fuel-indexed; `n + 1`
units of fuel always suffice since `n / 10 < n` for `n ≥ 10`). -/
def natDigitsAux : Nat → Nat → List Nat
  | 0, _ => []
  | fuel + 1, n => if n < 10 then [48 + n] else natDigitsAux fuel (n / 10) ++ [48 + n % 10]

/-- Python's `str(n)` for a natural number: its decimal digit string. -/
def natDigits (n : Nat) : List Nat := natDigitsAux (n + 1) n

/-- One line of the counts file (line 124): `f"{word},{count}"` where `count`
is the number of akṣaras of `word`. -/
def countLine (w : List Nat) : List Nat :=
  w ++ 0x2C :: natDigits (split_into_aksharas w).length

/-- The full contents of `<base>-counts.txt` (lines 118-124), one entry per
collected word, in input order. -/
def counts_output (nfc : List Nat → List Nat) (lines : List (List Nat)) : List (List Nat) :=
  (collect_words nfc lines).map countLine

theorem collect_words_go (nfc : List Nat → List Nat) (lines : List (List Nat))
    (acc : List (List Nat)) :
    lines.foldl
      (fun acc line =>
        let w := normalize_word nfc line
        if w ≠ [] then acc ++ [w] else acc)
      acc =
    acc ++ (lines.map (normalize_word nfc)).filter (fun w => !w.isEmpty) := by
  induction lines generalizing acc with
  | nil => simp
  | cons line rest ih =>
    simp only [List.foldl_cons, List.map_cons, List.filter_cons]
    by_cases h : normalize_word nfc line = []
    · simp only [h, ne_eq, not_true_eq_false, if_false, List.isEmpty_nil, Bool.not_true,
        Bool.false_eq_true, if_false]
      exact ih acc
    · have hne : (normalize_word nfc line).isEmpty = false := by
        cases hw : normalize_word nfc line with
        | nil => exact absurd hw h
        | cons a l => rfl
      simp only [h, ne_eq, not_false_eq_true, if_true, hne, Bool.not_false, if_true]
      rw [ih (acc ++ [normalize_word nfc line])]
      simp

theorem collect_words_eq (nfc : List Nat → List Nat) (lines : List (List Nat)) :
    collect_words nfc lines =
    (lines.map (normalize_word nfc)).filter (fun w => !w.isEmpty) := by
  have h := collect_words_go nfc lines []
  simpa [collect_words] using h

theorem natDigitsAux_mem (fuel n d : Nat) (hd : d ∈ natDigitsAux fuel n) :
    48 ≤ d ∧ d ≤ 57 := by
  induction fuel generalizing n with
  | zero => simp [natDigitsAux] at hd
  | succ fuel ih =>
    simp only [natDigitsAux] at hd
    split at hd
    · simp only [List.mem_singleton] at hd
      omega
    · rcases List.mem_append.mp hd with h | h
      · exact ih _ h
      · simp only [List.mem_singleton] at h
        have : n % 10 < 10 := Nat.mod_lt _ (by omega)
        omega

theorem natDigits_mem (n d : Nat) (hd : d ∈ natDigits n) : 48 ≤ d ∧ d ≤ 57 :=
  natDigitsAux_mem (n + 1) n d hd

theorem countLine_single_comma (w : List Nat) (hw : (0x2C : Nat) ∉ w) :
    (countLine w).count 0x2C = 1 := by
  simp only [countLine, List.count_append, List.count_cons]
  have h1 : w.count 0x2C = 0 := List.count_eq_zero.mpr hw
  have h2 : (natDigits (split_into_aksharas w).length).count 0x2C = 0 := by
    refine List.count_eq_zero.mpr fun hmem => ?_
    have := natDigits_mem _ _ hmem
    omega
  simp [h1, h2]

/-- **C6.** Count-table contract: the counts output has exactly one line per
input line that is non-blank after normalization (blank lines are skipped),
in input order with duplicates preserved; each line is the normalized word,
a comma, and the decimal akṣara count, and contains a single comma when the
word itself has none (no escaping is performed). -/
theorem C6_counts_table (nfc : List Nat → List Nat) (lines : List (List Nat)) :
    counts_output nfc lines =
      ((lines.map (normalize_word nfc)).filter (fun w => !w.isEmpty)).map
        (fun w => w ++ 0x2C :: natDigits (split_into_aksharas w).length) ∧
    ∀ w, (0x2C : Nat) ∉ w → (countLine w).count 0x2C = 1 := by
  constructor
  · rw [counts_output, collect_words_eq]
    rfl
  · exact fun w hw => countLine_single_comma w hw

theorem C6_counts_table_witness :
    (counts_output id [codes "राम", [], codes "तम्"] =
      (([codes "राम", [], codes "तम्"].map (normalize_word id)).filter
        (fun w => !w.isEmpty)).map
        (fun w => w ++ 0x2C :: natDigits (split_into_aksharas w).length) ∧
     ∀ w, (0x2C : Nat) ∉ w → (countLine w).count 0x2C = 1) ∧
    (countLine (codes "राम")).count 0x2C = 1 :=
  ⟨C6_counts_table id [codes "राम", [], codes "तम्"],
   (C6_counts_table id [codes "राम", [], codes "तम्"]).2 (codes "राम") (by decide)⟩

/-- `input_basename = input_path.split('.')[0]` (line 106): everything before
the first `'.'`, or the whole path if it has none. -/
def input_basename (p : List Nat) : List Nat :=
  p.takeWhile fun c => !(c == 0x2E)

/-- `count_output_path = input_basename + '-counts.txt'` (line 107). -/
def count_output_path (p : List Nat) : List Nat :=
  input_basename p ++ codes "-counts.txt"

/-- `json_output_path = input_basename + '-syllables.json'` (line 108). -/
def json_output_path (p : List Nat) : List Nat :=
  input_basename p ++ codes "-syllables.json"

/-- The spec's words, for comparison with `input_basename`: the path with its
extension stripped, i.e. everything from the last dot onward removed, the
path itself if it has no dot. -/
def stripExtension_spec (p : List Nat) : List Nat :=
  if 0x2E ∈ p then ((p.reverse.dropWhile fun c => !(c == 0x2E)).drop 1).reverse
  else p

/-- **C8, counterexample.** The claim fails on a path with two dots: the code
truncates at the first dot (`split('.')[0]`), not at the last one, so for
`"a.b.c"` the counts file is `"a-counts.txt"` and not
`"a.b-counts.txt"` as extension-stripping would give. -/
theorem C8_counterexample :
    count_output_path (codes "a.b.c") ≠
      stripExtension_spec (codes "a.b.c") ++ codes "-counts.txt" ∧
    count_output_path (codes "a.b.c") = codes "a-counts.txt" ∧
    stripExtension_spec (codes "a.b.c") = codes "a.b" := by
  decide

theorem basename_of_count_le_one (p : List Nat) (h : p.count 0x2E ≤ 1) :
    input_basename p = stripExtension_spec p := by
  induction p with
  | nil => simp [input_basename, stripExtension_spec]
  | cons c rest ih =>
    by_cases hc : c = (0x2E : Nat)
    · subst hc
      have hcount : rest.count 0x2E = 0 := by
        rw [List.count_cons_self] at h
        omega
      have hnot : (0x2E : Nat) ∉ rest := List.count_eq_zero.mp hcount
      have hrev : rest.reverse.dropWhile (fun c => !(c == (0x2E : Nat))) = [] :=
        List.dropWhile_eq_nil_iff.mpr fun x hx => by
          have : x ∈ rest := List.mem_reverse.mp hx
          simp only [Bool.not_eq_true', beq_eq_false_iff_ne, ne_eq]
          exact fun hxe => hnot (hxe ▸ this)
      simp only [input_basename, List.takeWhile_cons, beq_self_eq_true, Bool.not_true,
        Bool.false_eq_true, if_false]
      simp only [stripExtension_spec, List.mem_cons, true_or, if_true, List.reverse_cons]
      rw [List.dropWhile_append, hrev]
      simp
    · have hcr : rest.count 0x2E ≤ 1 := by
        rw [List.count_cons_of_ne (fun he => hc he.symm) rest] at h
        exact h
      have hpc : (!(c == (0x2E : Nat))) = true := by
        simp only [Bool.not_eq_true', beq_eq_false_iff_ne, ne_eq]
        exact hc
      by_cases hm : (0x2E : Nat) ∈ rest
      · have hdw : rest.reverse.dropWhile (fun c => !(c == (0x2E : Nat))) ≠ [] := by
          intro hnil
          have := List.dropWhile_eq_nil_iff.mp hnil 0x2E (List.mem_reverse.mpr hm)
          simp at this
        simp only [input_basename, List.takeWhile_cons, hpc, if_true]
        simp only [stripExtension_spec, List.mem_cons, hm, or_true, if_true,
          List.reverse_cons]
        rw [List.dropWhile_append]
        have hne : (rest.reverse.dropWhile fun c => !(c == (0x2E : Nat))).isEmpty = false := by
          cases hd : rest.reverse.dropWhile fun c => !(c == (0x2E : Nat)) with
          | nil => exact absurd hd hdw
          | cons a l => rfl
        rw [hne]
        simp only [Bool.false_eq_true, if_false]
        rw [List.drop_append_of_le_length]
        · rw [List.reverse_append]
          simp only [List.reverse_cons, List.reverse_nil, List.nil_append,
            List.singleton_append]
          rw [input_basename] at ih
          rw [ih hcr, stripExtension_spec, if_pos hm]
        · have : 0 < (rest.reverse.dropWhile fun c => !(c == (0x2E : Nat))).length := by
            cases hd : rest.reverse.dropWhile fun c => !(c == (0x2E : Nat)) with
            | nil => exact absurd hd hdw
            | cons a l => simp
          omega
      · have hall : rest.takeWhile (fun c => !(c == (0x2E : Nat))) = rest :=
          List.takeWhile_eq_self_iff.mpr fun x hx => by
            simp only [Bool.not_eq_true', beq_eq_false_iff_ne, ne_eq]
            exact fun hxe => hm (hxe ▸ hx)
        have hnm : (0x2E : Nat) ∉ c :: rest := by
          simp only [List.mem_cons, not_or]
          exact ⟨fun he => hc he.symm, hm⟩
        simp only [input_basename, List.takeWhile_cons, hpc, if_true, hall]
        rw [stripExtension_spec, if_neg hnm]

/-- **C8, amended.** Both output paths are derived from the prefix of the
input path before its first dot (`split('.')[0]`), with the fixed suffixes
appended; this agrees with "stripping the extension" exactly when the path
contains at most one dot. -/
theorem C8_amended_output_paths (p : List Nat) (h : p.count 0x2E ≤ 1) :
    count_output_path p = stripExtension_spec p ++ codes "-counts.txt" ∧
    json_output_path p = stripExtension_spec p ++ codes "-syllables.json" := by
  rw [count_output_path, json_output_path, basename_of_count_le_one p h]
  exact ⟨rfl, rfl⟩

theorem C8_amended_output_paths_witness :
    (codes "gita.txt").count 0x2E ≤ 1 ∧
    (count_output_path (codes "gita.txt") =
      stripExtension_spec (codes "gita.txt") ++ codes "-counts.txt" ∧
     json_output_path (codes "gita.txt") =
      stripExtension_spec (codes "gita.txt") ++ codes "-syllables.json") :=
  ⟨by decide, C8_amended_output_paths (codes "gita.txt") (by decide)⟩

/-- I/O events of a `process_file` run, in program order. -/
inductive IOEvent where
  | openInput (path : List Nat)
  | readLine (line : List Nat)
  | readError
  | openOutput (path : List Nat)
  | writeLines (path : List Nat) (content : List (List Nat))
  | writeIndex (path : List Nat)
  deriving DecidableEq

/-- The input stream as delivered by the operating system: each item is a
line, or a read failure.  `readPhase` models the `for line in f` loop
(lines 111-114): it consumes items until the stream ends (returning the lines
read) or a failure occurs (the exception propagates: `none`). -/
def readPhase : List (Except Unit (List Nat)) → List IOEvent × Option (List (List Nat))
  | [] => ([], some [])
  | .ok line :: rest =>
    let p := readPhase rest
    (IOEvent.readLine line :: p.1, p.2.map (line :: ·))
  | .error _ :: _ => ([IOEvent.readError], none)

/-- The I/O trace of `process_file` (lines 103-140): the input is opened and
fully read first; only when the whole read succeeds are the two output files
opened and written (the counts file with `counts_output`; the JSON index,
whose per-key content is modelled by the indexing definitions, as one
event). On a read failure the exception aborts the run with no further
events. -/
def process_file_trace (nfc : List Nat → List Nat) (path : List Nat)
    (stream : List (Except Unit (List Nat))) : List IOEvent :=
  let r := readPhase stream
  IOEvent.openInput path ::
    r.1 ++
      match r.2 with
      | none => []
      | some lines =>
        [IOEvent.openOutput (count_output_path path),
         IOEvent.writeLines (count_output_path path) (counts_output nfc lines),
         IOEvent.openOutput (json_output_path path),
         IOEvent.writeIndex (json_output_path path)]

theorem readPhase_error (stream : List (Except Unit (List Nat)))
    (h : Except.error () ∈ stream) : (readPhase stream).2 = none := by
  induction stream with
  | nil => simp at h
  | cons item rest ih =>
    match item with
    | .ok line =>
      have : Except.error () ∈ rest := by
        rcases List.mem_cons.mp h with h' | h'
        · exact absurd h' (by simp)
        · exact h'
      simp only [readPhase, ih this, Option.map_none']
    | .error e => rfl

theorem readPhase_events_are_reads (stream : List (Except Unit (List Nat)))
    (e : IOEvent) (he : e ∈ (readPhase stream).1) :
    e = IOEvent.readError ∨ ∃ l, e = IOEvent.readLine l := by
  induction stream with
  | nil => simp [readPhase] at he
  | cons item rest ih =>
    match item with
    | .ok line =>
      simp only [readPhase] at he
      rcases List.mem_cons.mp he with h' | h'
      · exact Or.inr ⟨line, h'⟩
      · exact ih h'
    | .error e' =>
      simp only [readPhase, List.mem_singleton] at he
      exact Or.inl he

/-- **C9.** I/O-error atomicity: the whole input is read before either output
file is opened, so if reading fails at any point the trace consists of the
input-open and read events only — no output file is ever opened or written. -/
theorem C9_no_partial_output (nfc : List Nat → List Nat) (path : List Nat)
    (stream : List (Except Unit (List Nat)))
    (h : Except.error () ∈ stream) :
    process_file_trace nfc path stream =
      IOEvent.openInput path :: (readPhase stream).1 ∧
    ∀ e ∈ process_file_trace nfc path stream,
      (∀ q, e ≠ IOEvent.openOutput q) ∧
      (∀ q c, e ≠ IOEvent.writeLines q c) ∧
      (∀ q, e ≠ IOEvent.writeIndex q) := by
  have hnone := readPhase_error stream h
  have htrace : process_file_trace nfc path stream =
      IOEvent.openInput path :: (readPhase stream).1 := by
    simp [process_file_trace, hnone]
  refine ⟨htrace, fun e he => ?_⟩
  rw [htrace] at he
  rcases List.mem_cons.mp he with h' | h'
  · subst h'
    exact ⟨fun q => by simp, fun q c => by simp, fun q => by simp⟩
  · rcases readPhase_events_are_reads stream e h' with h'' | ⟨l, h''⟩ <;> subst h'' <;>
      exact ⟨fun q => by simp, fun q c => by simp, fun q => by simp⟩

theorem C9_no_partial_output_witness :
    Except.error () ∈ [Except.ok (codes "राम"), Except.error ()] ∧
    (process_file_trace id (codes "gita.txt")
        [Except.ok (codes "राम"), Except.error ()] =
      IOEvent.openInput (codes "gita.txt") ::
        (readPhase [Except.ok (codes "राम"), Except.error ()]).1 ∧
     ∀ e ∈ process_file_trace id (codes "gita.txt")
        [Except.ok (codes "राम"), Except.error ()],
       (∀ q, e ≠ IOEvent.openOutput q) ∧
       (∀ q c, e ≠ IOEvent.writeLines q c) ∧
       (∀ q, e ≠ IOEvent.writeIndex q)) :=
  ⟨by simp,
   C9_no_partial_output id (codes "gita.txt")
     [Except.ok (codes "राम"), Except.error ()] (by simp)⟩

/-- Python `" ".join(parts)`: the parts separated by single spaces. -/
def joinSpace : List (List Nat) → List Nat
  | [] => []
  | [a] => a
  | a :: b :: rest => a ++ 0x20 :: joinSpace (b :: rest)

/-- `syllabified_word = " ".join(syllables)` (line 127). -/
def syllabified_word (w : List Nat) : List Nat :=
  joinSpace (split_into_aksharas w)

/-- Python `v.split(" ")`: split at every single space code point (consecutive
spaces yield empty fragments; the result is never the empty list). -/
def splitOnSpace : List Nat → List (List Nat)
  | [] => [[]]
  | c :: rest =>
    if c == 0x20 then [] :: splitOnSpace rest
    else
      match splitOnSpace rest with
      | s :: ss => (c :: s) :: ss
      | [] => [[c]]

/-- Python `set.add`: insert if not already present (modelled on the list of
elements in insertion order; the order is irrelevant once sorted). -/
def addToSet (x : List Nat) (l : List (List Nat)) : List (List Nat) :=
  if x ∈ l then l else l ++ [x]

/-- The set `syllable_index[s]` after the whole loop of lines 119-131: for
each word, `syllabified_word w` is added once per occurrence of `s` among the
word's akṣaras; since set insertion is idempotent, the word contributes
exactly when `s` is one of its akṣaras. -/
def keyWords (words : List (List Nat)) (s : List Nat) : List (List Nat) :=
  words.foldl
    (fun acc w =>
      if s ∈ split_into_aksharas w then addToSet (syllabified_word w) acc
      else acc)
    []

/-- Python string `<=`: lexicographic comparison by code point. -/
def lexLe : List Nat → List Nat → Bool
  | [], _ => true
  | _ :: _, [] => false
  | a :: as, b :: bs =>
    if a < b then true else if b < a then false else lexLe as bs

/-- The serialized value list under key `s` (lines 133-137):
`sorted(syllable_index[s])`. -/
def indexValue (words : List (List Nat)) (s : List Nat) : List (List Nat) :=
  (keyWords words s).mergeSort lexLe

theorem splitOnSpace_ne_nil : ∀ l : List Nat, splitOnSpace l ≠ []
  | [] => by simp [splitOnSpace]
  | c :: rest => by
    simp only [splitOnSpace]
    split
    · simp
    · cases h : splitOnSpace rest <;> simp

theorem splitOnSpace_append_space (a r : List Nat) :
    splitOnSpace (a ++ 0x20 :: r) = splitOnSpace a ++ splitOnSpace r := by
  induction a with
  | nil =>
    simp [splitOnSpace]
  | cons c a ih =>
    by_cases hc : c = (0x20 : Nat)
    · subst hc
      simp only [List.cons_append, splitOnSpace, beq_self_eq_true, if_true,
        List.append_eq, ih]
    · have hcb : (c == (0x20 : Nat)) = false := by
        simp only [beq_eq_false_iff_ne, ne_eq]
        exact hc
      obtain ⟨s, ss, hss⟩ : ∃ s ss, splitOnSpace a = s :: ss := by
        cases h : splitOnSpace a with
        | nil => exact absurd h (splitOnSpace_ne_nil a)
        | cons s ss => exact ⟨s, ss, rfl⟩
      simp only [List.cons_append, splitOnSpace, hcb, Bool.false_eq_true, if_false,
        List.append_eq, ih, hss, List.cons_append]

theorem splitOnSpace_no_space (s : List Nat) (h : (0x20 : Nat) ∉ s) :
    splitOnSpace s = [s] := by
  induction s with
  | nil => rfl
  | cons c rest ih =>
    have hc : (c == (0x20 : Nat)) = false := by
      simp only [beq_eq_false_iff_ne, ne_eq]
      intro hce
      exact h (hce ▸ List.mem_cons_self c rest)
    have hrest : (0x20 : Nat) ∉ rest := fun hm => h (List.mem_cons_of_mem c hm)
    simp only [splitOnSpace, hc, Bool.false_eq_true, if_false, ih hrest]

theorem mem_splitOnSpace_joinSpace :
    ∀ (parts : List (List Nat)) (s : List Nat),
      s ∈ parts → (0x20 : Nat) ∉ s → s ∈ splitOnSpace (joinSpace parts)
  | [], s, hs, _ => absurd hs (by simp)
  | [p], s, hs, hsp => by
    have : s = p := by simpa using hs
    subst this
    rw [joinSpace, splitOnSpace_no_space s hsp]
    exact List.mem_singleton_self s
  | p :: q :: rest, s, hs, hsp => by
    rw [show joinSpace (p :: q :: rest) = p ++ 0x20 :: joinSpace (q :: rest) from rfl,
      splitOnSpace_append_space]
    rcases List.mem_cons.mp hs with h | h
    · subst h
      rw [splitOnSpace_no_space s hsp]
      exact List.mem_append_left _ (List.mem_singleton_self s)
    · exact List.mem_append_right _
        (mem_splitOnSpace_joinSpace (q :: rest) s h hsp)

theorem mem_addToSet (x v : List Nat) (l : List (List Nat)) :
    v ∈ addToSet x l ↔ v ∈ l ∨ v = x := by
  rw [addToSet]
  split
  · constructor
    · exact Or.inl
    · rintro (hv | rfl)
      · exact hv
      · assumption
  · simp [List.mem_append]

theorem addToSet_nodup (x : List Nat) (l : List (List Nat)) (h : l.Nodup) :
    (addToSet x l).Nodup := by
  rw [addToSet]
  split
  · exact h
  · rename_i hx
    rw [List.nodup_append]
    exact ⟨h, List.nodup_singleton x,
      fun a ha hax => hx ((List.mem_singleton.mp hax) ▸ ha)⟩

theorem keyWords_go_mem (s : List Nat) (words : List (List Nat))
    (acc : List (List Nat)) (v : List Nat) :
    (v ∈ words.foldl
        (fun acc w =>
          if s ∈ split_into_aksharas w then addToSet (syllabified_word w) acc
          else acc)
        acc) ↔
    v ∈ acc ∨ ∃ w, w ∈ words ∧ s ∈ split_into_aksharas w ∧ v = syllabified_word w := by
  induction words generalizing acc with
  | nil => simp
  | cons w ws ih =>
    simp only [List.foldl_cons]
    by_cases hw : s ∈ split_into_aksharas w
    · rw [if_pos hw, ih, mem_addToSet]
      constructor
      · rintro ((hv | rfl) | ⟨u, hu, hsu, rfl⟩)
        · exact Or.inl hv
        · exact Or.inr ⟨w, List.mem_cons_self w ws, hw, rfl⟩
        · exact Or.inr ⟨u, List.mem_cons_of_mem w hu, hsu, rfl⟩
      · rintro (hv | ⟨u, hu, hsu, rfl⟩)
        · exact Or.inl (Or.inl hv)
        · rcases List.mem_cons.mp hu with rfl | hu'
          · exact Or.inl (Or.inr rfl)
          · exact Or.inr ⟨u, hu', hsu, rfl⟩
    · rw [if_neg hw, ih]
      constructor
      · rintro (hv | ⟨u, hu, hsu, rfl⟩)
        · exact Or.inl hv
        · exact Or.inr ⟨u, List.mem_cons_of_mem w hu, hsu, rfl⟩
      · rintro (hv | ⟨u, hu, hsu, rfl⟩)
        · exact Or.inl hv
        · rcases List.mem_cons.mp hu with rfl | hu'
          · exact absurd hsu hw
          · exact Or.inr ⟨u, hu', hsu, rfl⟩

theorem keyWords_mem (words : List (List Nat)) (s v : List Nat) :
    v ∈ keyWords words s ↔
    ∃ w, w ∈ words ∧ s ∈ split_into_aksharas w ∧ v = syllabified_word w := by
  rw [keyWords, keyWords_go_mem]
  simp

theorem keyWords_go_nodup (s : List Nat) (words : List (List Nat))
    (acc : List (List Nat)) (h : acc.Nodup) :
    (words.foldl
      (fun acc w =>
        if s ∈ split_into_aksharas w then addToSet (syllabified_word w) acc
        else acc)
      acc).Nodup := by
  induction words generalizing acc with
  | nil => exact h
  | cons w ws ih =>
    simp only [List.foldl_cons]
    by_cases hw : s ∈ split_into_aksharas w
    · rw [if_pos hw]
      exact ih _ (addToSet_nodup _ _ h)
    · rw [if_neg hw]
      exact ih _ h

theorem keyWords_nodup (words : List (List Nat)) (s : List Nat) :
    (keyWords words s).Nodup :=
  keyWords_go_nodup s words [] List.nodup_nil

theorem lexLe_total : ∀ a b : List Nat, (lexLe a b || lexLe b a) = true
  | [], b => by simp [lexLe]
  | a :: as, [] => by simp [lexLe]
  | a :: as, b :: bs => by
    simp only [lexLe]
    rcases Nat.lt_trichotomy a b with h | h | h
    · rw [if_pos h]
      simp
    · subst h
      simp only [lt_irrefl, if_false]
      exact lexLe_total as bs
    · rw [if_neg (by omega : ¬ a < b), if_pos h, if_pos h]
      simp

theorem lexLe_trans :
    ∀ a b c : List Nat, lexLe a b = true → lexLe b c = true → lexLe a c = true
  | [], _, _, _, _ => rfl
  | _ :: _, [], _, h, _ => by simp [lexLe] at h
  | _ :: _, _ :: _, [], _, h => by simp [lexLe] at h
  | a :: as, b :: bs, c :: cs, h1, h2 => by
    simp only [lexLe] at h1 h2 ⊢
    by_cases hab : a < b
    · by_cases hbc : b < c
      · rw [if_pos (by omega)]
      · rw [if_neg hbc] at h2
        by_cases hcb : c < b
        · rw [if_pos hcb] at h2
          exact absurd h2 (by simp)
        · rw [if_pos (by omega)]
    · rw [if_neg hab] at h1
      by_cases hba : b < a
      · rw [if_pos hba] at h1
        exact absurd h1 (by simp)
      · rw [if_neg hba] at h1
        have hab' : a = b := by omega
        subst hab'
        by_cases hac : a < c
        · rw [if_pos hac]
        · rw [if_neg hac] at h2 ⊢
          by_cases hca : c < a
          · rw [if_pos hca] at h2
            exact absurd h2 (by simp)
          · rw [if_neg hca] at h2 ⊢
            exact lexLe_trans as bs cs h1 h2

theorem indexValue_mem (words : List (List Nat)) (s v : List Nat) :
    v ∈ indexValue words s ↔
    ∃ w, w ∈ words ∧ s ∈ split_into_aksharas w ∧ v = syllabified_word w := by
  rw [indexValue, (List.mergeSort_perm (keyWords words s) lexLe).mem_iff]
  exact keyWords_mem words s v

theorem indexValue_sorted_nodup (words : List (List Nat)) (s : List Nat) :
    List.Pairwise (fun a b => lexLe a b = true ∧ a ≠ b) (indexValue words s) := by
  have hsorted : List.Pairwise (fun a b => lexLe a b = true) (indexValue words s) :=
    List.sorted_mergeSort lexLe_trans lexLe_total (keyWords words s)
  have hnodup : (indexValue words s).Nodup :=
    (List.mergeSort_perm (keyWords words s) lexLe).symm.nodup (keyWords_nodup words s)
  exact hsorted.and hnodup

/-- **C7, counterexample.** A word with an interior space breaks index
consistency: for the corpus `[[क, ' ', ख]]` the space is itself an akṣara, so
`" "` is a syllable key, and its value `"क   ख"` (the space-joined akṣaras),
split on spaces, is `["क", "", "", "ख"]` — which does not contain the key
`" "`. -/
theorem C7_counterexample :
    indexValue [[0x915, 0x20, 0x916]] [0x20] =
      [syllabified_word [0x915, 0x20, 0x916]] ∧
    [0x20] ∈ split_into_aksharas [0x915, 0x20, 0x916] ∧
    [0x20] ∉ splitOnSpace (syllabified_word [0x915, 0x20, 0x916]) := by
  refine ⟨?_, by decide, by decide⟩
  have hk : keyWords [[0x915, 0x20, 0x916]] [0x20] =
      [syllabified_word [0x915, 0x20, 0x916]] := by decide
  rw [indexValue, hk, List.mergeSort_singleton]

/-- **C7, amended.** Index consistency holds for every key that contains no
space code point (in particular for every akṣara produced by Rules V and C,
which absorb only Devanagari marks; only the fallback rule can make the
single-character akṣara `" "`): each stored syllabified form, split on
spaces, contains such a key.  Unconditionally, the value list under each key
is strictly sorted ascending in code-point lexicographic order (hence
distinct), and consists of exactly the syllabified forms of the corpus words
having the key among their akṣaras. -/
theorem C7_index_consistency_and_sorted (words : List (List Nat)) (s : List Nat) :
    (∀ v ∈ indexValue words s, (0x20 : Nat) ∉ s → s ∈ splitOnSpace v) ∧
    List.Pairwise (fun a b => lexLe a b = true ∧ a ≠ b) (indexValue words s) ∧
    (∀ v, v ∈ indexValue words s ↔
      ∃ w, w ∈ words ∧ s ∈ split_into_aksharas w ∧ v = syllabified_word w) := by
  refine ⟨?_, indexValue_sorted_nodup words s, fun v => indexValue_mem words s v⟩
  intro v hv hsp
  obtain ⟨w, _, hsw, rfl⟩ := (indexValue_mem words s _).mp hv
  exact mem_splitOnSpace_joinSpace (split_into_aksharas w) s hsw hsp

theorem C7_index_consistency_and_sorted_witness :
    (∀ v ∈ indexValue [codes "राम", codes "तम्"] (codes "रा"),
       (0x20 : Nat) ∉ codes "रा" → codes "रा" ∈ splitOnSpace v) ∧
    List.Pairwise (fun a b => lexLe a b = true ∧ a ≠ b)
      (indexValue [codes "राम", codes "तम्"] (codes "रा")) ∧
    (∀ v, v ∈ indexValue [codes "राम", codes "तम्"] (codes "रा") ↔
      ∃ w, w ∈ [codes "राम", codes "तम्"] ∧
        codes "रा" ∈ split_into_aksharas w ∧ v = syllabified_word w) :=
  C7_index_consistency_and_sorted [codes "राम", codes "तम्"] (codes "रा")

end Syllabify
